import Mathlib

/-!
Shallow embedding of `generate_publications.py`, a BibTeX-to-HTML static page
generator.  Python strings are modelled as `List Char`; Python dicts holding a
record's fields are association lists; Python exceptions are modelled by
`Option` results (`none` = the operation raises).  Only ASCII text occurs in
the bibliography inputs considered, so Python's character classes `\s`, `\w`
and `str.isdigit` are modelled by their ASCII restrictions.
-/

set_option maxRecDepth 1000000

/-- Python whitespace class `\s` (ASCII part): space, tab, newline, carriage
return, vertical tab, form feed.  Also the set stripped by `str.strip()`. -/
def isPySpace (c : Char) : Bool :=
  c = ' ' || c = '\t' || c = '\n' || c = '\r' || c = '\x0b' || c = '\x0c'

/-- Python word-character class `\w` (ASCII part): letters, digits, underscore. -/
def isWordChar (c : Char) : Bool :=
  c.isAlpha || c.isDigit || c = '_'

/-- Remove a maximal trailing run of characters satisfying `p` (helper for
`str.strip()`). -/
def dropTrailing (p : Char → Bool) : List Char → List Char
  | [] => []
  | c :: t =>
    if (dropTrailing p t).isEmpty && p c then [] else c :: dropTrailing p t

/-- Python `str.strip()`: drop leading and trailing whitespace. -/
def pyStrip (l : List Char) : List Char :=
  dropTrailing isPySpace (l.dropWhile isPySpace)

/-- Python `str.lower()` (ASCII). -/
def pyLower (l : List Char) : List Char :=
  l.map Char.toLower

/-- `begins n h` holds when `n` is an initial segment of `h`. -/
def begins : List Char → List Char → Bool
  | [], _ => true
  | _ :: _, [] => false
  | a :: n, b :: h => decide (a = b) && begins n h

/-- Helper for `pyFind`: scan with an accumulated start index. -/
def pyFindFrom (n : List Char) : Nat → List Char → Option Nat
  | k, [] => if n.isEmpty then some k else none
  | k, c :: t => if begins n (c :: t) then some k else pyFindFrom n (k + 1) t

/-- Python `str.find(sub)`: index of the first occurrence of `n` in `h`,
`none` when there is no occurrence (Python returns `-1`). -/
def pyFind (n h : List Char) : Option Nat := pyFindFrom n 0 h

/-- A Python dict as an association list (keys in insertion order). -/
abbrev Entry := List (List Char × List Char)

/-- Python `d.get(k, default)`. -/
def dictGet (d : Entry) (k dflt : List Char) : List Char :=
  match d.find? (fun p => decide (p.1 = k)) with
  | some p => p.2
  | none => dflt

/-- Python `d[k] = v`: replace the value when the key is present (keeping its
position), otherwise append a new binding. -/
def dictInsert (d : Entry) (k v : List Char) : Entry :=
  if d.any (fun p => decide (p.1 = k)) then
    d.map (fun p => if p.1 = k then (k, v) else p)
  else
    d ++ [(k, v)]

/-! ### The markup cleaner `clean_latex` (source lines 86-104) -/
/-- Core of the whole-string pattern `^[{](.+)[}]$`: the match succeeds on a
core of the form `{mid}` with `mid` nonempty and newline-free, producing `mid`
followed by the part of the string (at most one final newline) that the
zero-width `$` did not consume. -/
def sub1core (core tail : List Char) : Option (List Char) :=
  match core with
  | '{' :: rest =>
    if rest.getLast? = some '}' && decide (2 ≤ rest.length)
        && !(rest.dropLast.contains '\n') then
      some (rest.dropLast ++ tail)
    else none
  | _ => none

/-- One application of `re.sub(r'^[{](.+)[}]$', r'\1', text)`.  With no
MULTILINE flag the pattern matches exactly when the text is `{mid}` or
`{mid}\n` with `mid` nonempty and newline-free (`.` does not cross newlines
and `$` only matches at the end or before a final newline); the braces are
then removed. -/
def sub1 (s : List Char) : List Char :=
  (if s.getLast? = some '\n' then sub1core s.dropLast ['\n'] else sub1core s []).getD s

/-- The brace-free run after an opening brace (the `[^{}]+` part of the
single-level-brace pattern). -/
def braceRun (rest : List Char) : List Char :=
  rest.takeWhile (fun d => !(d = '{' || d = '}'))

/-- One application of `re.sub(r'\{([^{}]+)\}', r'\1', text)`: scanning left to
right, each minimal nonempty brace-free group `{run}` is replaced by `run`;
positions where no match starts are copied unchanged.  The fuel argument only
bounds recursion depth; every step consumes at least one character, so any
fuel above the length gives the same result (`sub2F_stable`). -/
def sub2F : Nat → List Char → List Char
  | 0, l => l
  | _ + 1, [] => []
  | fuel + 1, c :: rest =>
    if c = '{' then
      if (rest.drop (braceRun rest).length).head? = some '}'
          && !(braceRun rest).isEmpty then
        braceRun rest ++ sub2F fuel (rest.drop ((braceRun rest).length + 1))
      else c :: sub2F fuel rest
    else c :: sub2F fuel rest

def sub2 (l : List Char) : List Char := sub2F (l.length + 1) l

/-- The `while '{' in text` loop of `clean_latex`: apply the two
substitutions; stop when no opening brace remains or an iteration makes no
change.  Each non-final iteration strictly shrinks the string (`sub1` and
`sub2` only remove characters), so fuel `length + 1` is never exhausted
(`cleanLoopF_stable`). -/
def cleanLoopF : Nat → List Char → List Char
  | 0, s => s
  | fuel + 1, s =>
    if s.contains '{' then
      if sub2 (sub1 s) = s then s
      else cleanLoopF fuel (sub2 (sub1 s))
    else s

def cleanLoop (s : List Char) : List Char := cleanLoopF (s.length + 1) s

/-- The whitespace-collapsing pass `re.sub(r'\s+', ' ', text)`: every maximal
run of whitespace becomes a single space.  The flag records whether the scan
is inside a whitespace run. -/
def wsC : Bool → List Char → List Char
  | _, [] => []
  | inRun, c :: rest =>
    if isPySpace c then
      if inRun then wsC true rest else ' ' :: wsC true rest
    else c :: wsC false rest

/-- `clean_latex` (source lines 86-104): repeatedly strip braces, then
collapse whitespace and trim. -/
def clean_latex (s : List Char) : List Char :=
  if s.isEmpty then s
  else pyStrip (wsC false (cleanLoop s))

/-! ### The record extractor `parse_bibtex` (source lines 11-84) -/
/-- `parse_field_value` (lines 11-25): strip, then remove one layer of
surrounding quotes or braces. -/
def parse_field_value (s : List Char) : List Char :=
  let t := pyStrip s
  if t.head? = some '"' && t.getLast? = some '"' then (t.drop 1).dropLast
  else if t.head? = some '{' && t.getLast? = some '}' then (t.drop 1).dropLast
  else t

/-- The brace-matching scan of lines 56-65: starting from an opening brace,
count nesting and return how many characters (including the closing brace)
the value occupies; `none` when the brace never closes. -/
def braceScan : List Char → Int → Option Nat
  | [], _ => none
  | c :: rest, depth =>
    if c = '{' then (braceScan rest (depth + 1)).map (· + 1)
    else if c = '}' then
      if depth - 1 = 0 then some 1 else (braceScan rest (depth - 1)).map (· + 1)
    else (braceScan rest depth).map (· + 1)

/-- Match `(\w+)\s*=\s*` at the start of `s`: a nonempty word, optional
whitespace, `=`, optional whitespace.  Returns the word and the length of the
whole match. -/
def matchEqAt (s : List Char) : Option (List Char × Nat) :=
  let w := s.takeWhile isWordChar
  if w.isEmpty then none
  else
    let r1 := s.drop w.length
    let sp1 := r1.takeWhile isPySpace
    match r1.drop sp1.length with
    | '=' :: r2 => some (w, w.length + sp1.length + 1 + (r2.takeWhile isPySpace).length)
    | _ => none

/-- `re.search(r'(\w+)\s*=\s*', s)`: the leftmost match; returns the field
name and the match's end offset in `s`. -/
def searchEq : List Char → Option (List Char × Nat)
  | [] => none
  | c :: t =>
    match matchEqAt (c :: t) with
    | some r => some r
    | none => (searchEq t).map (fun r => (r.1, r.2 + 1))

/-- Where the field value starting at offset `vs` ends (lines 53-68): a braced
value runs to the matching close, a quoted value to the next quote (Python's
`find` returning `-1` makes `value_end = 0`), anything else fails. -/
def fieldValueEnd (fields : List Char) (vs : Nat) : Nat :=
  match (fields.drop vs).head? with
  | some '{' =>
    match braceScan (fields.drop vs) 0 with
    | some n => vs + n
    | none => vs
  | some '"' =>
    match (fields.drop (vs + 1)).findIdx? (fun c => decide (c = '"')) with
    | some m => vs + 1 + m + 1
    | none => 0
  | _ => vs

/-- One iteration of the field-parsing `while` loop (lines 43-77).  Returns
the next scan position and entry, or `none` when the loop exits (position at
or past the end, or no further field assignment found). -/
def parseFieldsStep (fields : List Char) (pos : Nat) (e : Entry) : Option (Nat × Entry) :=
  if pos < fields.length then
    match searchEq (fields.drop pos) with
    | none => none
    | some (name, mEnd) =>
      if pos + mEnd < fieldValueEnd fields (pos + mEnd) then
        some (fieldValueEnd fields (pos + mEnd),
          dictInsert e (pyLower name)
            (clean_latex (pyStrip (parse_field_value
              ((fields.drop (pos + mEnd)).take (fieldValueEnd fields (pos + mEnd) - (pos + mEnd)))))))
      else some (pos + 1, e)
  else none

/-- The field-parsing `while` loop (lines 43-77).  Each iteration strictly
increases the scan position (`parseFieldsStep_lt`), which stays below the
body's length while the loop runs, so fuel `length + 1` is never exhausted
(`parseFieldsLoopF_stable`). -/
def parseFieldsLoopF : Nat → List Char → Nat → Entry → Entry
  | 0, _, _, e => e
  | fuel + 1, fields, pos, e =>
    match parseFieldsStep fields pos e with
    | none => e
    | some (pos', e') => parseFieldsLoopF fuel fields pos' e'

def parseFieldsLoop (fields : List Char) (pos : Nat) (e : Entry) : Entry :=
  parseFieldsLoopF (fields.length + 1) fields pos e

def nlBrace : List Char := "\n\x7d".toList

/-- Match `@(\w+)\{([^,]+),(.+?)\n\}` (DOTALL) at the start of `s`: entry
type, citation key, and the shortest nonempty body followed by a newline and a
closing brace. -/
def matchEntryAt (s : List Char) : Option (List Char × List Char × List Char) :=
  match s with
  | '@' :: rest =>
    let w := rest.takeWhile isWordChar
    if w.isEmpty then none
    else
      match rest.drop w.length with
      | '{' :: r2 =>
        let k := r2.takeWhile (fun c => !(c = ','))
        if k.isEmpty then none
        else
          match r2.drop k.length with
          | ',' :: r3 =>
            match pyFind nlBrace (r3.drop 1) with
            | some m => some (w, k, r3.take (m + 1))
            | none => none
          | _ => none
      | _ => none
  | _ => none

/-- `re.findall` over the entry pattern (line 35): scan left to right,
emitting each match and resuming after it; on failure advance one character.
The amount consumed by a match is `@` + type + `{` + key + `,` + body +
the final newline and brace, so each step consumes at least one character and
fuel `length + 1` is never exhausted (`findEntriesF_stable`). -/
def findEntriesF : Nat → List Char → List (List Char × List Char × List Char)
  | 0, _ => []
  | _ + 1, [] => []
  | fuel + 1, c :: t =>
    match matchEntryAt (c :: t) with
    | some (w, k, body) =>
      (w, k, body) :: findEntriesF fuel ((c :: t).drop (w.length + k.length + body.length + 5))
    | none => findEntriesF fuel t

def findEntries (l : List Char) : List (List Char × List Char × List Char) :=
  findEntriesF (l.length + 1) l

/-- The per-entry parse (lines 37-79): start from `{'type': ..., 'key': ...}`
and run the field loop over the body. -/
def rawEntries (content : List Char) : List Entry :=
  (findEntries content).map fun p =>
    parseFieldsLoop p.2.2 0 [(("type".toList), p.1), (("key".toList), p.2.1)]

/-- Python `int(s)`: optional whitespace, optional sign, then digits possibly
separated by single underscores. -/
def pyIntRest : List Char → Bool
  | [] => true
  | '_' :: [] => false
  | '_' :: c :: r => c.isDigit && pyIntRest r
  | c :: r => c.isDigit && pyIntRest r

def pyIntDigits : List Char → Bool
  | [] => false
  | c :: r => c.isDigit && pyIntRest r

def digitsVal (l : List Char) : Nat :=
  (l.filter (fun c => !(c = '_'))).foldl (fun a c => a * 10 + (c.toNat - '0'.toNat)) 0

def pyInt? (s : List Char) : Option Int :=
  match pyStrip s with
  | '+' :: r => if pyIntDigits r then some ((digitsVal r : Nat) : Int) else none
  | '-' :: r => if pyIntDigits r then some (-((digitsVal r : Nat) : Int)) else none
  | r => if pyIntDigits r then some ((digitsVal r : Nat) : Int) else none

/-- Stable descending insertion: `a` is placed after every earlier element
whose key is at least `key a`. -/
def insertDesc {α : Type} (key : α → Int) (a : α) : List α → List α
  | [] => [a]
  | b :: bs => if key b < key a then a :: b :: bs else b :: insertDesc key a bs

/-- Stable sort, descending by `key`.  Python's `list.sort(key=…,
reverse=True)` is a stable descending sort by the key; any stable descending
sort computes the same list, and insertion from the left is one. -/
def sortDesc {α : Type} (key : α → Int) (l : List α) : List α :=
  l.foldl (fun acc a => insertDesc key a acc) []

/-- The sort key of line 82: `int(x.get('year', '0'))`, which raises (is
`none`) when the year value is not a valid integer literal. -/
def yearKey (e : Entry) : Option Int :=
  pyInt? (dictGet e ("year".toList) ("0".toList))

/-- The effective year used for ordering once every key has been computed
without raising (missing year gives `int('0') = 0`). -/
def effYear (e : Entry) : Int := (yearKey e).getD 0

/-- `parse_bibtex` (lines 27-84) applied to the file's text: extract entries,
parse their fields, and sort by year descending; `none` models the
`ValueError` raised by `int` on a non-numeric year. -/
def parse_bibtex (content : List Char) : Option (List Entry) :=
  if (rawEntries content).all (fun e => (yearKey e).isSome) then
    some (sortDesc effYear (rawEntries content))
  else none

/-! ### Author formatting, dates, titles, slugs (source lines 106-162) -/
def sepAnd : List Char := " and ".toList

/-- Python `s.split(' and ')`: split on the exact five-character separator,
scanning left to right over non-overlapping occurrences.  Each found
separator consumes at least five characters, so fuel `length + 1` is never
exhausted (`splitAndF_stable`). -/
def splitAndF : Nat → List Char → List (List Char)
  | 0, l => [l]
  | fuel + 1, l =>
    match pyFind sepAnd l with
    | none => [l]
    | some i => l.take i :: splitAndF fuel (l.drop (i + 5))

def splitAnd (l : List Char) : List (List Char) := splitAndF (l.length + 1) l

/-- `format_authors` (lines 106-119). -/
def format_authors (s : List Char) : List Char :=
  if s.isEmpty then []
  else
    match (splitAnd s).map pyStrip with
    | [] => []
    | [a] => a
    | [a, b] => a ++ (" and ".toList) ++ b
    | l => List.intercalate (", ".toList) l.dropLast ++ (", and ".toList) ++ l.getLastD []

/-- The fixed month-name table of `get_date_for_filename` (lines 127-140). -/
def monthsTable : List (List Char × List Char) := [
  ("jan".toList, "01".toList), ("january".toList, "01".toList),
  ("feb".toList, "02".toList), ("february".toList, "02".toList),
  ("mar".toList, "03".toList), ("march".toList, "03".toList),
  ("apr".toList, "04".toList), ("april".toList, "04".toList),
  ("may".toList, "05".toList),
  ("jun".toList, "06".toList), ("june".toList, "06".toList),
  ("jul".toList, "07".toList), ("july".toList, "07".toList),
  ("aug".toList, "08".toList), ("august".toList, "08".toList),
  ("sep".toList, "09".toList), ("september".toList, "09".toList),
  ("oct".toList, "10".toList), ("october".toList, "10".toList),
  ("nov".toList, "11".toList), ("november".toList, "11".toList),
  ("dec".toList, "12".toList), ("december".toList, "12".toList)]

def tableLookup (t : List (List Char × List Char)) (k : List Char) : Option (List Char) :=
  (t.find? (fun p => decide (p.1 = k))).map (fun p => p.2)

/-- Python `str.isdigit()` (ASCII): nonempty and all digits. -/
def isAllDigits (m : List Char) : Bool :=
  !m.isEmpty && m.all Char.isDigit

/-- The format spec `{month:0>2}`: pad on the left with `'0'` to width two. -/
def pad2 (m : List Char) : List Char :=
  if m.length < 2 then List.replicate (2 - m.length) '0' ++ m else m

/-- The month component after the table lookup / digit test of lines
142-145. -/
def monthPart (pub : Entry) : List Char :=
  let month := dictGet pub ("month".toList) ("01".toList)
  match tableLookup monthsTable (pyLower month) with
  | some v => v
  | none => if !(isAllDigits month) then ("01".toList) else month

/-- `get_date_for_filename` (lines 121-147): `YYYY-MM` string for filenames. -/
def get_date_for_filename (pub : Entry) : List Char :=
  dictGet pub ("year".toList) ("2020".toList) ++ ['-'] ++ pad2 (monthPart pub)

/-- `get_publication_title` (lines 149-154). -/
def get_publication_title (pub : Entry) : List Char :=
  pyStrip (clean_latex (dictGet pub ("title".toList) ("Untitled".toList)))

/-- `generate_publication_slug` (lines 156-162): lower-case the title, keep
only lowercase letters, digits and whitespace, then hyphen-join the first five
whitespace-separated words. -/
def pySplitWsF : Nat → List Char → List (List Char)
  | 0, _ => []
  | fuel + 1, l =>
    match l.dropWhile isPySpace with
    | [] => []
    | c :: rest =>
      ((c :: rest).takeWhile (fun d => !isPySpace d))
        :: pySplitWsF fuel ((c :: rest).drop ((c :: rest).takeWhile (fun d => !isPySpace d)).length)

/-- Python `str.split()` with no separator: whitespace-delimited words, no
empties.  Each word is nonempty, so fuel `length + 1` is never exhausted
(`pySplitWsF_stable`). -/
def pySplitWs (l : List Char) : List (List Char) := pySplitWsF (l.length + 1) l

def generate_publication_slug (pub : Entry) : List Char :=
  let title := pyLower (dictGet pub ("title".toList) ("untitled".toList))
  let slug := title.filter (fun c => ('a' ≤ c && c ≤ 'z') || c.isDigit || isPySpace c)
  List.intercalate ['-'] ((pySplitWs slug).take 5)

/-! ### The summary objects and the index renderer (source lines 443-533, 564-587) -/
/-- The per-publication summary dict built in `main` (lines 580-587). -/
structure Summary where
  filename : List Char
  title : List Char
  journal : List Char
  year : List Char
  type : List Char
  authors : List Char
deriving DecidableEq, Repr

/-- Lines 564-587: the detail-page filename and the summary appended to
`pub_links` for each parsed record. -/
def buildPubLinks (pubs : List Entry) : List Summary :=
  pubs.map fun pub =>
    { filename := get_date_for_filename pub ++ ['-'] ++ generate_publication_slug pub
        ++ (".html".toList)
      title := get_publication_title pub
      journal := dictGet pub ("journal".toList)
        (dictGet pub ("booktitle".toList) ("Unknown".toList))
      year := dictGet pub ("year".toList) ("n.d.".toList)
      type := dictGet pub ("type".toList) ("article".toList)
      authors := format_authors (dictGet pub ("author".toList) ("Unknown Author".toList)) }

/-- Line 447: `pub_links.sort(key=lambda x: int(x['year']), reverse=True)`;
`none` models the `ValueError` raised when some year is not numeric. -/
def sortSummaries (pubs : List Summary) : Option (List Summary) :=
  if pubs.all (fun p => (pyInt? p.year).isSome) then
    some (sortDesc (fun p => (pyInt? p.year).getD 0) pubs)
  else none

/-- Lines 450-456: the type-based groups. -/
def articlesOf (pubs : List Summary) : List Summary :=
  pubs.filter fun p => decide (p.type = ("article".toList))

def booksOf (pubs : List Summary) : List Summary :=
  pubs.filter fun p => decide (p.type = ("book".toList))

def inproceedingsOf (pubs : List Summary) : List Summary :=
  pubs.filter fun p =>
    decide (p.type = ("inproceedings".toList) ∨ p.type = ("conference".toList))

def incollectionsOf (pubs : List Summary) : List Summary :=
  pubs.filter fun p => decide (p.type = ("incollection".toList))

def othersOf (pubs : List Summary) : List Summary :=
  pubs.filter fun p =>
    decide (¬ (p.type = ("article".toList) ∨ p.type = ("book".toList)
      ∨ p.type = ("inproceedings".toList) ∨ p.type = ("conference".toList)
      ∨ p.type = ("incollection".toList) ∨ p.type = ("phdthesis".toList)
      ∨ p.type = ("misc".toList)))

def thesisOf (pubs : List Summary) : List Summary :=
  pubs.filter fun p => decide (p.type = ("phdthesis".toList))

def miscOf (pubs : List Summary) : List Summary :=
  pubs.filter fun p => decide (p.type = ("misc".toList))

/-- The groups that lines 502-525 actually render, concatenated in rendered
order.  (`booksOf` is computed at line 451 but appears in no section.) -/
def renderedEntries (pubs : List Summary) : List Summary :=
  articlesOf pubs ++ incollectionsOf pubs ++ inproceedingsOf pubs ++ thesisOf pubs
    ++ (miscOf pubs ++ othersOf pubs)

/-- `build_pub_entry` (lines 471-496): the HTML block for one summary. -/
def build_pub_entry (p : Summary) : List Char :=
  ("\n<div class=\"list__item\">\n  <article class=\"archive__item\" itemscope itemtype=\"http://schema.org/CreativeWork\">\n    <h2 class=\"archive__item-title\" itemprop=\"headline\">\n      <a href=\"".toList)
  ++ ("/albertocarraro/publication/".toList)
  ++ p.filename.take (p.filename.length - 5)
  ++ ("\" rel=\"permalink\">".toList) ++ p.title
  ++ ("</a>\n    </h2>\n    \n    <p>Published in <i>".toList) ++ p.journal
  ++ ("</i>, ".toList) ++ p.year
  ++ ("</p>\n    \n    <p class=\"archive__item-excerpt\" itemprop=\"description\">".toList)
  ++ p.authors
  ++ ("</p>\n  </article>\n</div>\n".toList)

/-- The anchor substring `<div class="archive">` used to find the header
boundary (line 463). -/
def archiveMark : List Char := "<div class=\"archive\">".toList

/-- The anchor substring of line 467 that starts the preserved footer. -/
def footMark : List Char :=
  "  </div>\n</div>\n\n\n    <div class=\"page__footer\">".toList

/-- Lines 463-464: everything before the first `<div class="archive">`, or
the whole file when the anchor is absent. -/
def headerOf (orig : List Char) : List Char :=
  match pyFind archiveMark orig with
  | some i => orig.take i
  | none => orig

/-- Lines 467-468: everything from the first footer anchor on, or empty when
it is absent. -/
def footerOf (orig : List Char) : List Char :=
  match pyFind footMark orig with
  | some i => orig.drop i
  | none => []

/-- Lines 499-527: the freshly built content region (the sorted list is
passed in). -/
def indexContent (pubs : List Summary) : List Char :=
  archiveMark
  ++ ("\n    <h1 class=\"page__title\">Publications</h1>\n".toList)
  ++ ("  <div class=\"wordwrap\">You can also find my articles on <a href=\"https://scholar.google.com/citations?user=PS_CX0AAAAAJ\">my Google Scholar profile</a>.</div>\n\n".toList)
  ++ (if (articlesOf pubs).isEmpty then [] else
      ("\n    <h2>Journal Articles</h2><hr />\n".toList)
      ++ ((articlesOf pubs).map build_pub_entry).flatten)
  ++ (if (incollectionsOf pubs).isEmpty then [] else
      ("\n    <h2>Book Chapters</h2><hr />\n".toList)
      ++ ((incollectionsOf pubs).map build_pub_entry).flatten)
  ++ (if (inproceedingsOf pubs).isEmpty then [] else
      ("\n    <h2>Conference Papers</h2><hr />\n".toList)
      ++ ((inproceedingsOf pubs).map build_pub_entry).flatten)
  ++ (if (thesisOf pubs).isEmpty then [] else
      ("\n    <h2>Theses</h2><hr />\n".toList)
      ++ ((thesisOf pubs).map build_pub_entry).flatten)
  ++ (if (miscOf pubs).isEmpty && (othersOf pubs).isEmpty then [] else
      ("\n    <h2>Other Publications</h2><hr />\n".toList)
      ++ ((miscOf pubs ++ othersOf pubs).map build_pub_entry).flatten)
  ++ ("\n  </div>\n</div>\n".toList)

/-- `generate_publications_index` (lines 443-533) as a function from the
existing index file's text and the summary list to the new file's text;
`none` models the `ValueError` of the year sort at line 447. -/
def generate_publications_index (orig : List Char) (pubs : List Summary) :
    Option (List Char) :=
  match sortSummaries pubs with
  | none => none
  | some sorted => some (headerOf orig ++ (indexContent sorted ++ footerOf orig))

/-! ### Whitespace normalization facts (for the cleaner's final pass) -/
/-- No two adjacent spaces. -/
def noAdjSpaces : List Char → Bool
  | a :: b :: t => !(decide (a = ' ') && decide (b = ' ')) && noAdjSpaces (b :: t)
  | _ => true

/-- Fully normalized whitespace: every whitespace character is a plain space,
no two spaces are adjacent, and the string neither starts nor ends with a
space. -/
def wsNormalized (l : List Char) : Bool :=
  l.all (fun c => !(isPySpace c) || decide (c = ' '))
  && noAdjSpaces l
  && !(decide (l.head? = some ' ')) && !(decide (l.getLast? = some ' '))

/-! ### Claim C1: ordering of the extractor's output -/
/-- Claim C1 (counterexample): the extractor does raise on a record whose
year field is a non-numeric string.  The record parses (one entry, with year
value `abc`), and then the sort key `int(x.get('year', '0'))` raises
`ValueError`, modelled by `parse_bibtex` returning `none`. -/
def nonNumericYearBib : List Char := "@article\x7bk,\n year = \x7babc\x7d\n\x7d".toList

def stableSortBib : List Char :=
  "@article\x7ba,\n year = \x7b2020\x7d\n\x7d\n@article\x7bb,\n year = \x7b2021\x7d\n\x7d\n@misc\x7bc,\n year = \x7b2020\x7d\n\x7d".toList

def stableSortPubs : List Entry := (parse_bibtex stableSortBib).getD []

def scanBody : List Char := " a = \x7bb\x7d c".toList

def scanStep : Nat × Entry := (parseFieldsStep scanBody 0 []).getD (0, [])

def typeFieldBib : List Char :=
  "@article\x7borig, type = \x7bmisc\x7d, key = \x7bzzz\x7d,\n year = \x7b2000\x7d\n\x7d".toList

def typeFieldLinks : List Summary := buildPubLinks (rawEntries typeFieldBib)

/-! ### Claim C4: missing required-ish fields -/
def noYearBib : List Char := "@misc\x7bk,\n title = \x7bT\x7d\n\x7d".toList

def noYearEntry : Entry := ((parse_bibtex noYearBib).getD []).headD []

def sampleIndexFile : List Char :=
  ("HEAD ".toList) ++ archiveMark ++ (" old content \n".toList) ++ footMark ++ (" TAIL".toList)

/-! ### Claim C6: the spec's worked example -/
def exampleRecordOneLine : List Char :=
  "@article\x7bcarraro2023, title = \x7bA Study of \x7bGF\x7d(2) Codes\x7d, author = \x7bA. Carraro and B. Smith\x7d, year = \x7b2023\x7d, journal = \x7bJ. Coding\x7d\x7d".toList

def exampleRecord : List Char :=
  "@article\x7bcarraro2023, title = \x7bA Study of \x7bGF\x7d(2) Codes\x7d, author = \x7bA. Carraro and B. Smith\x7d, year = \x7b2023\x7d, journal = \x7bJ. Coding\x7d\n\x7d".toList

def exampleEntry : Entry := ((parse_bibtex exampleRecord).getD []).headD []

/-! ### Claim C5: the filename date prefix -/
def validMonths : List (List Char) :=
  ["01".toList, "02".toList, "03".toList, "04".toList, "05".toList, "06".toList,
   "07".toList, "08".toList, "09".toList, "10".toList, "11".toList, "12".toList]

def month13Entry : Entry :=
  [(("type".toList), ("article".toList)), (("key".toList), ("k".toList)),
   (("month".toList), ("13".toList))]

def bookSummary : Summary :=
  { filename := "2020-01-b.html".toList, title := "B".toList, journal := "J".toList,
    year := "2020".toList, type := "book".toList, authors := "A".toList }

/-! ### Claim C2: the cleaner and brace removal -/
/-- Balanced braces in the claim's sense: reading left to right the nesting
depth never goes negative and ends at zero. -/
def braceDepthOk : Int → List Char → Bool
  | d, [] => decide (d = 0)
  | d, '{' :: t => braceDepthOk (d + 1) t
  | d, '}' :: t => decide (0 < d) && braceDepthOk (d - 1) t
  | d, _ :: t => braceDepthOk d t

def balancedBraces (l : List Char) : Bool := braceDepthOk 0 l

/-- `n` has no self-overlap: no nonempty proper suffix of `n` is also a
prefix. -/
def overlapFreeB (n : List Char) : Bool :=
  (List.range n.length).all fun j =>
    decide (j = 0) || decide (n.drop j ≠ n.take (n.length - j))

def idxO1 : List Char := (generate_publications_index sampleIndexFile []).getD []

def markTitleSummary : Summary :=
  { filename := "2020-01-x.html".toList, title := footMark, journal := "J".toList,
    year := "2020".toList, type := "article".toList, authors := "A".toList }

def badO1 : List Char :=
  (generate_publications_index sampleIndexFile [markTitleSummary]).getD []

/-- Joining tokens with a separator (the inverse direction of Python's
`split`). -/
def joinSep (sep : List Char) : List (List Char) → List Char
  | [] => []
  | [t] => t
  | t :: t2 :: rest => t ++ sep ++ joinSep sep (t2 :: rest)

/-- Modelled from the spec (§4.3): the display form for a list of author
names — empty for none, the name itself for one, `A and B` for two, and an
Oxford-style comma list ending in `, and Z` for three or more. -/
def renderAuthors : List (List Char) → List Char
  | [] => []
  | [a] => a
  | [a, b] => a ++ (" and ".toList) ++ b
  | l => List.intercalate (", ".toList) l.dropLast ++ (", and ".toList) ++ l.getLastD []

def authorTokens : List (List Char) :=
  ["W ".toList, " X".toList, "Y".toList, " Z ".toList]

lemma pyFindFrom_shift (n : List Char) (k : Nat) (h : List Char) :
    pyFindFrom n k h = (pyFindFrom n 0 h).map (· + k) := by
  induction h generalizing k with
  | nil =>
    simp only [pyFindFrom]
    split <;> simp
  | cons c t ih =>
    simp only [pyFindFrom]
    split
    · simp
    · rw [ih (k + 1), ih 1, Option.map_map]
      congr 1
      funext x
      simp
      omega

lemma pyFind_nil (n : List Char) : pyFind n [] = if n.isEmpty then some 0 else none := rfl

lemma pyFind_cons (n : List Char) (c : Char) (t : List Char) :
    pyFind n (c :: t) = if begins n (c :: t) then some 0 else (pyFind n t).map (· + 1) := by
  unfold pyFind
  simp only [pyFindFrom]
  split
  · rfl
  · exact pyFindFrom_shift n 1 t

lemma takeWhile_length_le (p : Char → Bool) (l : List Char) :
    (l.takeWhile p).length ≤ l.length := by
  induction l with
  | nil => simp
  | cons a t ih =>
    by_cases h : p a
    · simp [List.takeWhile, h]
      omega
    · simp [List.takeWhile, h]

lemma braceRun_lt (rest : List Char)
    (hcond : (decide ((List.drop (braceRun rest).length rest).head? = some '}')
      && !(braceRun rest).isEmpty) = true) :
    (braceRun rest).length < rest.length := by
  by_contra hle
  have : rest.drop ((braceRun rest).length) = [] :=
    List.drop_eq_nil_of_le (by omega)
  rw [this] at hcond
  simp at hcond

lemma sub2F_stable (fuel fuel' : Nat) (l : List Char)
    (h : l.length < fuel) (h' : l.length < fuel') :
    sub2F fuel l = sub2F fuel' l := by
  induction fuel generalizing fuel' l with
  | zero => omega
  | succ f ih =>
    cases l with
    | nil =>
      cases fuel' with
      | zero => omega
      | succ f' => rfl
    | cons c rest =>
      cases fuel' with
      | zero => omega
      | succ f' =>
        simp only [sub2F]
        have hdrop : (rest.drop ((braceRun rest).length + 1)).length ≤ rest.length := by
          simp [List.length_drop]
        have h1 : rest.length < f := by simp at h; omega
        have h1' : rest.length < f' := by simp at h'; omega
        rw [ih f' rest h1 h1',
          ih f' (rest.drop ((braceRun rest).length + 1)) (by omega) (by omega)]

lemma sub2F_length_le (fuel : Nat) (l : List Char) : (sub2F fuel l).length ≤ l.length := by
  induction fuel generalizing l with
  | zero => simp [sub2F]
  | succ f ih =>
    cases l with
    | nil => simp [sub2F]
    | cons c rest =>
      simp only [sub2F]
      by_cases hc : c = '{'
      · rw [if_pos hc]
        by_cases hcond : ((rest.drop (braceRun rest).length).head? = some '}'
            && !(braceRun rest).isEmpty) = true
        · rw [if_pos hcond]
          have h3 := braceRun_lt rest (by simpa using hcond)
          have h4 := ih (rest.drop ((braceRun rest).length + 1))
          simp only [List.length_append, List.length_cons, List.length_drop] at h4 ⊢
          omega
        · rw [if_neg hcond]
          have := ih rest
          simp only [List.length_cons]
          omega
      · rw [if_neg hc]
        have := ih rest
        simp only [List.length_cons]
        omega

lemma sub2F_lt_of_ne (fuel : Nat) (l : List Char) (h : sub2F fuel l ≠ l) :
    (sub2F fuel l).length < l.length := by
  induction fuel generalizing l with
  | zero => simp [sub2F] at h
  | succ f ih =>
    cases l with
    | nil => simp [sub2F] at h
    | cons c rest =>
      simp only [sub2F] at h ⊢
      by_cases hc : c = '{'
      · rw [if_pos hc] at h ⊢
        by_cases hcond : ((rest.drop (braceRun rest).length).head? = some '}'
            && !(braceRun rest).isEmpty) = true
        · rw [if_pos hcond] at h ⊢
          have h3 := braceRun_lt rest (by simpa using hcond)
          have h4 := sub2F_length_le f (rest.drop ((braceRun rest).length + 1))
          simp only [List.length_append, List.length_cons, List.length_drop] at h4 ⊢
          omega
        · rw [if_neg hcond] at h ⊢
          have hne : sub2F f rest ≠ rest := fun he => h (by rw [he])
          have := ih rest hne
          simp only [List.length_cons]
          omega
      · rw [if_neg hc] at h ⊢
        have hne : sub2F f rest ≠ rest := fun he => h (by rw [he])
        have := ih rest hne
        simp only [List.length_cons]
        omega

lemma sub2_length_le (l : List Char) : (sub2 l).length ≤ l.length :=
  sub2F_length_le _ l

lemma sub2_lt_of_ne (l : List Char) (h : sub2 l ≠ l) : (sub2 l).length < l.length :=
  sub2F_lt_of_ne _ l h

lemma sub1core_length (core tail v : List Char) (h : sub1core core tail = some v) :
    v.length + 2 = core.length + tail.length := by
  unfold sub1core at h
  split at h
  · rename_i rest
    split at h
    · rename_i hcnd
      simp only [Option.some.injEq] at h
      subst h
      simp only [Bool.and_eq_true, decide_eq_true_eq] at hcnd
      have hrest : rest ≠ [] := by
        intro he; rw [he] at hcnd; simp at hcnd
      have : rest.dropLast.length = rest.length - 1 := by simp
      simp only [List.length_append, List.length_cons, this]
      have : 2 ≤ rest.length := hcnd.1.2
      omega
    · exact absurd h (by simp)
  · exact absurd h (by simp)

lemma sub1_cases (s : List Char) : sub1 s = s ∨ (sub1 s).length + 2 = s.length := by
  unfold sub1
  by_cases hn : s.getLast? = some '\n'
  · simp only [hn, reduceIte]
    match h : sub1core s.dropLast ['\n'] with
    | none => simp [Option.getD]
    | some v =>
      right
      have hv := sub1core_length _ _ _ h
      have hs : s ≠ [] := by intro he; rw [he] at hn; simp at hn
      have hd : s.dropLast.length = s.length - 1 := by simp
      simp only [Option.getD_some]
      have hlen : s.length ≠ 0 := by
        intro he; exact hs (List.eq_nil_of_length_eq_zero he)
      simp [hd] at hv
      omega
  · simp only [hn, reduceIte]
    match h : sub1core s [] with
    | none => simp [Option.getD]
    | some v =>
      right
      have := sub1core_length _ _ _ h
      simp only [Option.getD_some]
      simp at this
      omega

lemma cleanLoop_step_lt (s : List Char) (h : sub2 (sub1 s) ≠ s) :
    (sub2 (sub1 s)).length < s.length := by
  rcases sub1_cases s with h1 | h1
  · rw [h1] at h ⊢
    exact sub2_lt_of_ne s h
  · have h2 := sub2_length_le (sub1 s)
    omega

lemma cleanLoopF_stable (fuel fuel' : Nat) (s : List Char)
    (h : s.length < fuel) (h' : s.length < fuel') :
    cleanLoopF fuel s = cleanLoopF fuel' s := by
  induction fuel generalizing fuel' s with
  | zero => omega
  | succ f ih =>
    cases fuel' with
    | zero => omega
    | succ f' =>
      simp only [cleanLoopF]
      by_cases hb : s.contains '{'
      · rw [if_pos hb, if_pos hb]
        by_cases he : sub2 (sub1 s) = s
        · rw [if_pos he, if_pos he]
        · rw [if_neg he, if_neg he]
          have := cleanLoop_step_lt s he
          exact ih f' _ (by omega) (by omega)
      · rw [if_neg hb, if_neg hb]

/-! ### Basic facts about `begins` and `pyFind` -/
lemma begins_iff (n h : List Char) : begins n h = true ↔ ∃ t, n ++ t = h := by
  induction n generalizing h with
  | nil => simp [begins]
  | cons a n ih =>
    cases h with
    | nil => simp [begins]
    | cons b h' =>
      simp only [begins, Bool.and_eq_true, decide_eq_true_eq, ih, List.cons_append,
        List.cons.injEq]
      constructor
      · rintro ⟨rfl, t, rfl⟩
        exact ⟨t, rfl, rfl⟩
      · rintro ⟨t, rfl, rfl⟩
        exact ⟨rfl, t, rfl⟩

lemma begins_length_le (n h : List Char) (hb : begins n h = true) : n.length ≤ h.length := by
  obtain ⟨t, rfl⟩ := (begins_iff n h).mp hb
  simp

lemma begins_append_self (n c : List Char) : begins n (n ++ c) = true :=
  (begins_iff _ _).mpr ⟨c, rfl⟩

lemma pyFind_some_begins (n h : List Char) (i : Nat) (hf : pyFind n h = some i) :
    begins n (h.drop i) = true := by
  induction h generalizing i with
  | nil =>
    rw [pyFind_nil] at hf
    split at hf
    · rename_i hn
      simp only [Option.some.injEq] at hf
      subst hf
      simp only [List.isEmpty_iff] at hn
      subst hn
      simp [begins]
    · simp at hf
  | cons c t ih =>
    rw [pyFind_cons] at hf
    split at hf
    · rename_i hb
      simp only [Option.some.injEq] at hf
      subst hf
      simpa using hb
    · simp only [Option.map_eq_some'] at hf
      obtain ⟨j, hj, hij⟩ := hf
      subst hij
      simpa using ih j hj

lemma pyFind_some_min (n h : List Char) (i : Nat) (hf : pyFind n h = some i) :
    ∀ k, k < i → begins n (h.drop k) = false := by
  induction h generalizing i with
  | nil =>
    rw [pyFind_nil] at hf
    split at hf
    · simp only [Option.some.injEq] at hf
      subst hf
      intro k hk
      omega
    · simp at hf
  | cons c t ih =>
    rw [pyFind_cons] at hf
    split at hf
    · simp only [Option.some.injEq] at hf
      subst hf
      intro k hk
      omega
    · rename_i hb
      simp only [Option.map_eq_some'] at hf
      obtain ⟨j, hj, hij⟩ := hf
      subst hij
      intro k hk
      cases k with
      | zero => simpa using hb
      | succ k' => simpa using ih j hj k' (by omega)

lemma pyFind_none_all (n h : List Char) (hf : pyFind n h = none) :
    ∀ k, begins n (h.drop k) = false := by
  induction h with
  | nil =>
    rw [pyFind_nil] at hf
    split at hf
    · simp at hf
    · rename_i hn
      intro k
      simp only [List.drop_nil]
      cases n with
      | nil => simp at hn
      | cons a n' => simp [begins]
  | cons c t ih =>
    rw [pyFind_cons] at hf
    split at hf
    · simp at hf
    · rename_i hb
      simp only [Option.map_eq_none'] at hf
      intro k
      cases k with
      | zero => simpa using hb
      | succ k' => simpa using ih hf k'

lemma pyFind_eq_some_of (n h : List Char) (i : Nat)
    (hb : begins n (h.drop i) = true)
    (hmin : ∀ k, k < i → begins n (h.drop k) = false) :
    pyFind n h = some i := by
  induction h generalizing i with
  | nil =>
    have hn : n = [] := by
      cases n with
      | nil => rfl
      | cons a n' => simp [begins] at hb
    subst hn
    have hi : i = 0 := by
      by_contra hne
      have := hmin 0 (by omega)
      simp [begins] at this
    subst hi
    rfl
  | cons c t ih =>
    by_cases hb0 : begins n (c :: t) = true
    · have hi : i = 0 := by
        by_contra hne
        have := hmin 0 (by omega)
        simp only [List.drop_zero] at this
        rw [hb0] at this
        exact absurd this (by simp)
      subst hi
      rw [pyFind_cons]
      rw [if_pos hb0]
    · cases i with
      | zero =>
        simp only [List.drop_zero] at hb
        exact absurd hb hb0
      | succ i' =>
        have hrec := ih i' (by simpa using hb)
          (fun k hk => by simpa using hmin (k + 1) (by omega))
        rw [pyFind_cons]
        rw [if_neg hb0, hrec]
        rfl

lemma parseFieldsStep_lt (fields : List Char) (pos : Nat) (e : Entry) (pos' : Nat) (e' : Entry)
    (h : parseFieldsStep fields pos e = some (pos', e')) :
    pos < pos' ∧ pos < fields.length := by
  unfold parseFieldsStep at h
  split at h
  · rename_i hlt
    split at h
    · exact absurd h (by simp)
    · rename_i name mEnd heq
      split at h
      · rename_i hvs
        simp only [Option.some.injEq, Prod.mk.injEq] at h
        obtain ⟨h1, _h2⟩ := h
        subst h1
        exact ⟨by omega, hlt⟩
      · simp only [Option.some.injEq, Prod.mk.injEq] at h
        obtain ⟨h1, _h2⟩ := h
        subst h1
        exact ⟨by omega, hlt⟩
  · exact absurd h (by simp)

lemma parseFieldsLoopF_stable (fuel fuel' : Nat) (fields : List Char) (pos : Nat) (e : Entry)
    (h : fields.length - pos < fuel) (h' : fields.length - pos < fuel') :
    parseFieldsLoopF fuel fields pos e = parseFieldsLoopF fuel' fields pos e := by
  induction fuel generalizing fuel' pos e with
  | zero => omega
  | succ f ih =>
    cases fuel' with
    | zero => omega
    | succ f' =>
      simp only [parseFieldsLoopF]
      cases hstep : parseFieldsStep fields pos e with
      | none => rfl
      | some pe =>
        obtain ⟨pos', e'⟩ := pe
        have hlt := parseFieldsStep_lt fields pos e pos' e' hstep
        exact ih f' pos' e' (by omega) (by omega)

lemma findEntriesF_stable (fuel fuel' : Nat) (l : List Char)
    (h : l.length < fuel) (h' : l.length < fuel') :
    findEntriesF fuel l = findEntriesF fuel' l := by
  induction fuel generalizing fuel' l with
  | zero => omega
  | succ f ih =>
    cases fuel' with
    | zero => omega
    | succ f' =>
      cases l with
      | nil => rfl
      | cons c t =>
        simp only [findEntriesF]
        cases hm : matchEntryAt (c :: t) with
        | none =>
          rw [ih f' t (by simp at h; omega) (by simp at h'; omega)]
        | some r =>
          obtain ⟨w, k, body⟩ := r
          dsimp only
          rw [ih f' ((c :: t).drop (w.length + k.length + body.length + 5))
            (by simp [List.length_drop] at h ⊢; omega)
            (by simp [List.length_drop] at h' ⊢; omega)]

lemma pyFind_sepAnd_bound (l : List Char) (i : Nat) (hf : pyFind sepAnd l = some i) :
    i + 5 ≤ l.length := by
  have h1 := pyFind_some_begins sepAnd l i hf
  have h2 := begins_length_le _ _ h1
  simp only [List.length_drop] at h2
  have h5 : sepAnd.length = 5 := rfl
  rw [h5] at h2
  by_cases hi : i ≤ l.length
  · omega
  · exfalso
    have : l.drop i = [] := List.drop_eq_nil_of_le (by omega)
    rw [this] at h1
    simp [sepAnd, begins] at h1

lemma splitAndF_stable (fuel fuel' : Nat) (l : List Char)
    (h : l.length < fuel) (h' : l.length < fuel') :
    splitAndF fuel l = splitAndF fuel' l := by
  induction fuel generalizing fuel' l with
  | zero => omega
  | succ f ih =>
    cases fuel' with
    | zero => omega
    | succ f' =>
      simp only [splitAndF]
      cases hm : pyFind sepAnd l with
      | none => rfl
      | some i =>
        have hb := pyFind_sepAnd_bound l i hm
        have hd : (l.drop (i + 5)).length = l.length - (i + 5) := by
          simp [List.length_drop]
        dsimp only
        rw [ih f' (l.drop (i + 5)) (by omega) (by omega)]

/-- Unfolding equations for `splitAnd` (the fuel is irrelevant by
`splitAndF_stable`). -/
lemma splitAnd_eq_none (l : List Char) (hm : pyFind sepAnd l = none) :
    splitAnd l = [l] := by
  unfold splitAnd
  simp only [splitAndF, hm]

lemma splitAnd_eq_some (l : List Char) (i : Nat) (hm : pyFind sepAnd l = some i) :
    splitAnd l = l.take i :: splitAnd (l.drop (i + 5)) := by
  have h1 : splitAndF (l.length + 1) l = l.take i :: splitAndF l.length (l.drop (i + 5)) := by
    simp only [splitAndF, hm]
  unfold splitAnd
  rw [h1]
  have hb := pyFind_sepAnd_bound l i hm
  have hd : (l.drop (i + 5)).length = l.length - (i + 5) := by
    simp [List.length_drop]
  rw [splitAndF_stable l.length ((l.drop (i + 5)).length + 1) _ (by omega) (by omega)]

lemma dropWhile_length_le (p : Char → Bool) (l : List Char) :
    (l.dropWhile p).length ≤ l.length := by
  induction l with
  | nil => simp
  | cons a t ih =>
    by_cases h : p a
    · simp [List.dropWhile, h]
      omega
    · simp [List.dropWhile, h]

lemma pySplitWsF_stable (fuel fuel' : Nat) (l : List Char)
    (h : l.length < fuel) (h' : l.length < fuel') :
    pySplitWsF fuel l = pySplitWsF fuel' l := by
  induction fuel generalizing fuel' l with
  | zero => omega
  | succ f ih =>
    cases fuel' with
    | zero => omega
    | succ f' =>
      simp only [pySplitWsF]
      cases hm : l.dropWhile isPySpace with
      | nil => rfl
      | cons c rest =>
        have hd : (c :: rest).length ≤ l.length := by
          have := dropWhile_length_le isPySpace l
          rw [hm] at this
          exact this
        have hc : isPySpace c = false := by
          have := List.head?_dropWhile_not isPySpace l
          rw [hm] at this
          simpa using this
        have htw : 1 ≤ ((c :: rest).takeWhile (fun d => !isPySpace d)).length := by
          simp [List.takeWhile, hc]
        have hrec : ((c :: rest).drop
            ((c :: rest).takeWhile (fun d => !isPySpace d)).length).length
            ≤ (c :: rest).length - 1 := by
          simp only [List.length_drop]
          omega
        simp only [List.length_cons] at hd hrec
        dsimp only
        rw [ih f' _ (by omega) (by omega)]

lemma wsC_mem (b : Bool) (l : List Char) (x : Char) (hx : x ∈ wsC b l) :
    x = ' ' ∨ isPySpace x = false := by
  induction l generalizing b with
  | nil => simp [wsC] at hx
  | cons c rest ih =>
    unfold wsC at hx
    by_cases hc : isPySpace c
    · rw [if_pos hc] at hx
      cases b
      · simp only [Bool.false_eq_true, reduceIte] at hx
        rcases List.mem_cons.mp hx with h | h
        · exact Or.inl h
        · exact ih true h
      · simp only [reduceIte] at hx
        exact ih true hx
    · rw [if_neg hc] at hx
      rcases List.mem_cons.mp hx with h | h
      · subst h
        exact Or.inr (eq_false_of_ne_true hc)
      · exact ih false h

lemma wsC_all_space (b : Bool) (l : List Char) :
    (wsC b l).all (fun c => !(isPySpace c) || decide (c = ' ')) = true := by
  rw [List.all_eq_true]
  intro x hx
  rcases wsC_mem b l x hx with h | h
  · simp [h]
  · simp [h]

lemma wsC_true_head (l : List Char) (c : Char) (h : (wsC true l).head? = some c) :
    isPySpace c = false := by
  induction l with
  | nil => simp [wsC] at h
  | cons a rest ih =>
    unfold wsC at h
    by_cases ha : isPySpace a
    · simp only [ha, reduceIte] at h
      exact ih h
    · simp only [ha, Bool.false_eq_true, reduceIte, List.head?_cons,
        Option.some.injEq] at h
      subst h
      exact eq_false_of_ne_true ha

lemma noAdjSpaces_cons (c : Char) (l : List Char)
    (hl : noAdjSpaces l = true)
    (hh : ∀ d, l.head? = some d → ¬(c = ' ' ∧ d = ' ')) :
    noAdjSpaces (c :: l) = true := by
  cases l with
  | nil => simp [noAdjSpaces]
  | cons d t =>
    unfold noAdjSpaces
    have := hh d (by simp)
    simp only [Bool.and_eq_true, Bool.not_eq_eq_eq_not, Bool.not_true]
    refine ⟨?_, hl⟩
    by_cases h1 : c = ' '
    · by_cases h2 : d = ' '
      · simp only [h1, h2]
        tauto
      · simp [h1, h2]
    · simp [h1]

lemma wsC_noAdj (b : Bool) (l : List Char) : noAdjSpaces (wsC b l) = true := by
  induction l generalizing b with
  | nil => simp [wsC, noAdjSpaces]
  | cons c rest ih =>
    unfold wsC
    by_cases hc : isPySpace c
    · by_cases hb : b
      · subst hb
        simp only [hc, reduceIte]
        exact ih true
      · simp only [hc, reduceIte, Bool.not_eq_true] at *
        rw [hb]
        simp only [Bool.false_eq_true, reduceIte]
        apply noAdjSpaces_cons _ _ (ih true)
        intro d hd hcd
        have := wsC_true_head rest d hd
        rw [hcd.2] at this
        simp [isPySpace] at this
    · simp only [hc, Bool.false_eq_true, reduceIte]
      apply noAdjSpaces_cons _ _ (ih false)
      intro d _hd hcd
      rw [hcd.1] at hc
      simp [isPySpace] at hc

lemma noAdjSpaces_of_prefix (a b : List Char) (h : noAdjSpaces (a ++ b) = true) :
    noAdjSpaces a = true := by
  induction a with
  | nil => simp [noAdjSpaces]
  | cons c t ih =>
    cases t with
    | nil => simp [noAdjSpaces]
    | cons d t' =>
      unfold noAdjSpaces at h ⊢
      simp only [List.cons_append, Bool.and_eq_true] at h ⊢
      exact ⟨h.1, ih h.2⟩

lemma noAdjSpaces_of_suffix (a b : List Char) (h : noAdjSpaces (a ++ b) = true) :
    noAdjSpaces b = true := by
  induction a with
  | nil => simpa using h
  | cons c t ih =>
    apply ih
    rw [List.cons_append] at h
    cases ht : t ++ b with
    | nil => simp [noAdjSpaces]
    | cons d t' =>
      rw [ht] at h
      unfold noAdjSpaces at h
      simp only [Bool.and_eq_true] at h
      exact h.2

lemma dropTrailing_prefix (p : Char → Bool) (l : List Char) :
    ∃ l2, dropTrailing p l ++ l2 = l := by
  induction l with
  | nil => exact ⟨[], rfl⟩
  | cons c t ih =>
    obtain ⟨l2, hl2⟩ := ih
    unfold dropTrailing
    by_cases hc : (dropTrailing p t).isEmpty && p c
    · simp only [hc, reduceIte]
      exact ⟨c :: t, rfl⟩
    · simp only [hc, Bool.false_eq_true, reduceIte]
      exact ⟨l2, by rw [List.cons_append, hl2]⟩

lemma dropTrailing_last (p : Char → Bool) (l : List Char) (c : Char)
    (h : (dropTrailing p l).getLast? = some c) : p c = false := by
  induction l with
  | nil => simp [dropTrailing] at h
  | cons a t ih =>
    unfold dropTrailing at h
    by_cases ha : (dropTrailing p t).isEmpty && p a
    · simp only [ha, reduceIte] at h
      simp at h
    · simp only [ha, Bool.false_eq_true, reduceIte] at h
      cases hf : dropTrailing p t with
      | nil =>
        rw [hf] at h
        simp only [List.getLast?_singleton, Option.some.injEq] at h
        subst h
        rw [hf] at ha
        simp only [List.isEmpty_nil, Bool.true_and] at ha
        exact eq_false_of_ne_true ha
      | cons d t' =>
        apply ih
        rw [hf] at h ⊢
        rwa [List.getLast?_cons_cons] at h

lemma prefix_all {q : Char → Bool} (a b : List Char) (h : (a ++ b).all q = true) :
    a.all q = true := by
  simp only [List.all_append, Bool.and_eq_true] at h
  exact h.1

lemma pyStrip_head (l : List Char) (c : Char) (h : (pyStrip l).head? = some c) :
    isPySpace c = false := by
  unfold pyStrip at h
  obtain ⟨l2, hl2⟩ := dropTrailing_prefix isPySpace (l.dropWhile isPySpace)
  have hhead : (l.dropWhile isPySpace).head? = some c := by
    rw [← hl2]
    cases hd : dropTrailing isPySpace (l.dropWhile isPySpace) with
    | nil => rw [hd] at h; simp at h
    | cons a t =>
      rw [hd] at h
      simp only [List.head?_cons, Option.some.injEq] at h
      subst h
      simp
  have := List.head?_dropWhile_not isPySpace l
  rw [hhead] at this
  simpa using this

lemma pyStrip_last (l : List Char) (c : Char) (h : (pyStrip l).getLast? = some c) :
    isPySpace c = false :=
  dropTrailing_last isPySpace _ c h

lemma pyStrip_all {q : Char → Bool} (l : List Char) (h : l.all q = true) :
    (pyStrip l).all q = true := by
  unfold pyStrip
  obtain ⟨l2, hl2⟩ := dropTrailing_prefix isPySpace (l.dropWhile isPySpace)
  apply prefix_all _ l2
  rw [hl2]
  have h2 : (l.takeWhile isPySpace ++ l.dropWhile isPySpace).all q = true := by
    rw [List.takeWhile_append_dropWhile]
    exact h
  simp only [List.all_append, Bool.and_eq_true] at h2
  exact h2.2

lemma pyStrip_noAdj (l : List Char) (h : noAdjSpaces l = true) :
    noAdjSpaces (pyStrip l) = true := by
  unfold pyStrip
  obtain ⟨l2, hl2⟩ := dropTrailing_prefix isPySpace (l.dropWhile isPySpace)
  apply noAdjSpaces_of_prefix _ l2
  rw [hl2]
  apply noAdjSpaces_of_suffix (l.takeWhile isPySpace)
  rw [List.takeWhile_append_dropWhile]
  exact h

/-! ### Facts about the stable descending sort -/
lemma insertDesc_mem {α : Type} (key : α → Int) (a x : α) (l : List α) :
    x ∈ insertDesc key a l ↔ x = a ∨ x ∈ l := by
  induction l with
  | nil => simp [insertDesc]
  | cons b bs ih =>
    unfold insertDesc
    split
    · simp [or_comm, or_assoc, or_left_comm]
    · simp [ih]
      tauto

lemma insertDesc_sorted {α : Type} (key : α → Int) (a : α) (l : List α)
    (hs : l.Pairwise (fun x y => key y ≤ key x)) :
    (insertDesc key a l).Pairwise (fun x y => key y ≤ key x) := by
  induction l with
  | nil => simp [insertDesc]
  | cons b bs ih =>
    rw [List.pairwise_cons] at hs
    unfold insertDesc
    split
    · rename_i hlt
      rw [List.pairwise_cons]
      constructor
      · intro x hx
        rcases List.mem_cons.mp hx with rfl | hx
        · omega
        · have := hs.1 x hx
          omega
      · rw [List.pairwise_cons]
        exact hs
    · rename_i hge
      rw [List.pairwise_cons]
      constructor
      · intro x hx
        rcases (insertDesc_mem key a x bs).mp hx with rfl | hx
        · omega
        · exact hs.1 x hx
      · exact ih hs.2

lemma sortDesc_sorted_aux {α : Type} (key : α → Int) (l acc : List α)
    (hacc : acc.Pairwise (fun x y => key y ≤ key x)) :
    (l.foldl (fun acc a => insertDesc key a acc) acc).Pairwise
      (fun x y => key y ≤ key x) := by
  induction l generalizing acc with
  | nil => simpa using hacc
  | cons a t ih =>
    simp only [List.foldl_cons]
    exact ih _ (insertDesc_sorted key a acc hacc)

lemma sortDesc_sorted {α : Type} (key : α → Int) (l : List α) :
    (sortDesc key l).Pairwise (fun x y => key y ≤ key x) :=
  sortDesc_sorted_aux key l [] (by simp)

lemma insertDesc_filter {α : Type} (key : α → Int) (a : α) (l : List α) (k : Int)
    (hs : l.Pairwise (fun x y => key y ≤ key x)) :
    (insertDesc key a l).filter (fun x => decide (key x = k))
      = l.filter (fun x => decide (key x = k))
        ++ (if key a = k then [a] else []) := by
  induction l with
  | nil =>
    simp only [insertDesc, List.filter, List.nil_append]
    by_cases h : key a = k <;> simp [h]
  | cons b bs ih =>
    rw [List.pairwise_cons] at hs
    unfold insertDesc
    split
    · rename_i hlt
      have hnil : (b :: bs).filter (fun x => decide (key x = k)) = []
          ∨ ¬ key a = k := by
        by_cases hak : key a = k
        · left
          rw [List.filter_eq_nil_iff]
          intro x hx
          rcases List.mem_cons.mp hx with rfl | hx
          · simp; omega
          · have := hs.1 x hx
            simp
            omega
        · right
          exact hak
      by_cases hak : key a = k
      · rcases hnil with hnil | hnil
        · rw [List.filter_cons]
          simp only [hak, decide_eq_true_eq, if_pos, reduceIte, decide_eq_true]
          rw [hnil]
          simp [hak]
        · exact absurd hak hnil
      · rw [List.filter_cons]
        simp [hak]
    · rename_i hge
      rw [List.filter_cons, List.filter_cons]
      by_cases hbk : key b = k
      · simp only [hbk, decide_eq_true, reduceIte]
        rw [ih hs.2]
        simp
      · simp only [hbk, decide_eq_false, Bool.false_eq_true, reduceIte]
        exact ih hs.2

lemma sortDesc_filter_aux {α : Type} (key : α → Int) (l acc : List α) (k : Int)
    (hacc : acc.Pairwise (fun x y => key y ≤ key x)) :
    (l.foldl (fun acc a => insertDesc key a acc) acc).filter (fun x => decide (key x = k))
      = acc.filter (fun x => decide (key x = k)) ++ l.filter (fun x => decide (key x = k)) := by
  induction l generalizing acc with
  | nil => simp
  | cons a t ih =>
    simp only [List.foldl_cons]
    rw [ih _ (insertDesc_sorted key a acc hacc)]
    rw [insertDesc_filter key a acc k hacc]
    rw [List.filter_cons]
    by_cases hak : key a = k <;> simp [hak]

/-- Stability: sorting permutes nothing within one key class — the sublist of
elements with any given key is unchanged. -/
lemma sortDesc_filter {α : Type} (key : α → Int) (l : List α) (k : Int) :
    (sortDesc key l).filter (fun x => decide (key x = k))
      = l.filter (fun x => decide (key x = k)) :=
  (sortDesc_filter_aux key l [] k (by simp)).trans (by simp)

theorem parse_bibtex_raises_on_nonnumeric_year :
    (rawEntries nonNumericYearBib).length = 1
    ∧ dictGet ((rawEntries nonNumericYearBib).headD []) ("year".toList) [] = "abc".toList
    ∧ parse_bibtex nonNumericYearBib = none := by decide

/-- Claim C1 (amended): whenever `parse_bibtex` returns (no year key raised),
the returned sequence is ordered by descending effective year — missing year
counts as 0 and sorts last — and the sort is stable: for each key value, the
records with that effective year appear exactly as in parse order.  A record
with a non-numeric year instead makes the extractor raise
(`parse_bibtex_raises_on_nonnumeric_year`). -/
theorem parse_bibtex_sorted_stable (content : List Char) (pubs : List Entry)
    (h : parse_bibtex content = some pubs) :
    pubs.Pairwise (fun a b => effYear b ≤ effYear a)
    ∧ ∀ k : Int, pubs.filter (fun e => decide (effYear e = k))
        = (rawEntries content).filter (fun e => decide (effYear e = k)) := by
  unfold parse_bibtex at h
  split at h
  · simp only [Option.some.injEq] at h
    subst h
    exact ⟨sortDesc_sorted effYear _, fun k => sortDesc_filter effYear _ k⟩
  · exact absurd h (by simp)

/-- Witness: the amended C1 theorem applied to a concrete bibliography with a
year tie. -/
theorem parse_bibtex_sorted_stable_witness :
    stableSortPubs.Pairwise (fun a b => effYear b ≤ effYear a)
    ∧ ∀ k : Int, stableSortPubs.filter (fun e => decide (effYear e = k))
        = (rawEntries stableSortBib).filter (fun e => decide (effYear e = k)) :=
  parse_bibtex_sorted_stable stableSortBib stableSortPubs (by decide)

/-! ### Claim C9: the field-parsing scan makes progress -/
lemma matchEqAt_ge2 (s w : List Char) (m : Nat) (h : matchEqAt s = some (w, m)) :
    2 ≤ m := by
  simp only [matchEqAt] at h
  split at h
  · exact absurd h (by simp)
  · rename_i hne
    split at h
    · rename_i r2 heq
      simp only [Option.some.injEq, Prod.mk.injEq] at h
      obtain ⟨_, hm⟩ := h
      have hw : 1 ≤ (s.takeWhile isWordChar).length := by
        cases hcase : s.takeWhile isWordChar with
        | nil => rw [hcase] at hne; simp at hne
        | cons x xs => simp
      omega
    · exact absurd h (by simp)

lemma searchEq_ge2 (s w : List Char) (m : Nat) (h : searchEq s = some (w, m)) :
    2 ≤ m := by
  induction s generalizing w m with
  | nil => simp [searchEq] at h
  | cons c t ih =>
    unfold searchEq at h
    split at h
    · rename_i r heq
      simp only [Option.some.injEq] at h
      subst h
      exact matchEqAt_ge2 _ _ _ heq
    · simp only [Option.map_eq_some'] at h
      obtain ⟨r, hr, hrm⟩ := h
      obtain ⟨w', m'⟩ := r
      simp only [Prod.mk.injEq] at hrm
      obtain ⟨_, hm⟩ := hrm
      have := ih w' m' hr
      omega

/-- Claim C9: one iteration of the field-parsing loop either advances the
scan position by exactly one character (leaving the entry unchanged, when
value extraction fails) or consumes a whole `name = value` field, landing at
least three characters further; in both cases the position strictly
increases, which is why the loop terminates on arbitrary record bodies. -/
theorem parse_fields_scan_progress (fields : List Char) (pos : Nat) (e : Entry)
    (pos' : Nat) (e' : Entry)
    (h : parseFieldsStep fields pos e = some (pos', e')) :
    pos < pos' ∧ ((pos' = pos + 1 ∧ e' = e) ∨ pos + 3 ≤ pos') := by
  unfold parseFieldsStep at h
  split at h
  · rename_i hlt
    split at h
    · exact absurd h (by simp)
    · rename_i name mEnd heq
      have hm2 := searchEq_ge2 _ _ _ heq
      split at h
      · rename_i hvs
        simp only [Option.some.injEq, Prod.mk.injEq] at h
        obtain ⟨h1, _h2⟩ := h
        subst h1
        refine ⟨by omega, Or.inr (by omega)⟩
      · simp only [Option.some.injEq, Prod.mk.injEq] at h
        obtain ⟨h1, h2⟩ := h
        subst h1
        exact ⟨by omega, Or.inl ⟨rfl, h2.symm⟩⟩
  · exact absurd h (by simp)

/-- Witness: the C9 theorem applied to a concrete body at position 0. -/
theorem parse_fields_scan_progress_witness :
    0 < scanStep.1 ∧ ((scanStep.1 = 0 + 1 ∧ scanStep.2 = ([] : Entry)) ∨ 0 + 3 ≤ scanStep.1) :=
  parse_fields_scan_progress scanBody 0 [] scanStep.1 scanStep.2 (by decide)

/-! ### Claim C10: `type` and `key` fields overwrite the record's slots -/
lemma dictGet_dictInsert (d : Entry) (k v dflt : List Char) :
    dictGet (dictInsert d k v) k dflt = v := by
  induction d with
  | nil => simp [dictInsert, dictGet, List.find?]
  | cons p t ih =>
    by_cases hp : p.1 = k
    · have hany : (p :: t).any (fun q => decide (q.1 = k)) = true := by
        simp [List.any_cons, hp]
      unfold dictInsert
      rw [if_pos hany]
      simp only [List.map_cons, if_pos hp]
      simp [dictGet, List.find?]
    · unfold dictInsert at ih ⊢
      by_cases hat : t.any (fun q => decide (q.1 = k))
      · have hany : (p :: t).any (fun q => decide (q.1 = k)) = true := by
          simp [List.any_cons, hat]
        rw [if_pos hany]
        rw [if_pos hat] at ih
        simp only [List.map_cons, if_neg hp]
        unfold dictGet
        rw [List.find?_cons_of_neg _ (by simp [hp])]
        exact ih
      · have hany : (p :: t).any (fun q => decide (q.1 = k)) = false := by
          rw [List.any_cons]
          simp only [Bool.or_eq_false_iff]
          exact ⟨by simpa using hp, Bool.eq_false_iff.mpr hat⟩
        rw [if_neg (by simp [hany])]
        rw [if_neg hat] at ih
        simp only [List.cons_append]
        unfold dictGet
        rw [List.find?_cons_of_neg _ (by simp [hp])]
        exact ih

/-- Claim C10: storing a parsed field named `type` (or `key`) writes into the
same dict slot that holds the entry type (or citation key), overwriting it;
concretely, a record introduced as `@article` whose body assigns
`type = {misc}` and `key = {zzz}` ends up with type `misc` and key `zzz`, and
the index groups it under Other (misc), not under Journal Articles. -/
theorem type_key_fields_overwrite :
    (∀ (d : Entry) (v dflt : List Char),
      dictGet (dictInsert d ("type".toList) v) ("type".toList) dflt = v)
    ∧ (∀ (d : Entry) (v dflt : List Char),
      dictGet (dictInsert d ("key".toList) v) ("key".toList) dflt = v)
    ∧ (rawEntries typeFieldBib).length = 1
    ∧ dictGet ((rawEntries typeFieldBib).headD []) ("type".toList) [] = "misc".toList
    ∧ dictGet ((rawEntries typeFieldBib).headD []) ("key".toList) [] = "zzz".toList
    ∧ typeFieldLinks.map (fun p => p.type) = ["misc".toList]
    ∧ articlesOf typeFieldLinks = []
    ∧ miscOf typeFieldLinks = typeFieldLinks :=
  ⟨fun d v dflt => dictGet_dictInsert d _ v dflt,
   fun d v dflt => dictGet_dictInsert d _ v dflt,
   by decide, by decide, by decide, by decide, by decide, by decide⟩

/-- Claim C4 (code bug): for a record with no `year` field the detail-page
values are the documented placeholders (`Untitled`/`Unknown Author`/`n.d.`)
and per-record generation succeeds, but the subsequent index generation sorts
summaries with `int(x['year'])`, computing `int('n.d.')`, which raises — so
rendering does not always succeed, contradicting the claim and §7 of the
spec, while the placeholder machinery shows the claim matches the intent. -/
theorem index_generation_raises_on_missing_year :
    parse_bibtex noYearBib = some [noYearEntry]
    ∧ get_publication_title noYearEntry = "T".toList
    ∧ format_authors (dictGet noYearEntry ("author".toList) ("Unknown Author".toList))
        = "Unknown Author".toList
    ∧ dictGet noYearEntry ("year".toList) ("n.d.".toList) = "n.d.".toList
    ∧ (buildPubLinks [noYearEntry]).map (fun p => p.year) = ["n.d.".toList]
    ∧ sortSummaries (buildPubLinks [noYearEntry]) = none
    ∧ generate_publications_index sampleIndexFile (buildPubLinks [noYearEntry]) = none := by
  decide

/-- Claim C6 (counterexample): with the example record written exactly as the
claim gives it (all on one line, the entry's closing brace directly after the
last field), the entry pattern — which requires a newline before the closing
brace — matches nothing, so the tool parses zero records, not one. -/
theorem example_record_single_line_not_parsed :
    rawEntries exampleRecordOneLine = [] ∧ parse_bibtex exampleRecordOneLine = some [] := by
  decide

/-- Claim C6 (amended): with the record's closing brace on its own line (the
conventional layout the entry pattern expects), exactly one record parses,
its title renders as `A Study of GF(2) Codes`, its author line as
`A. Carraro and B. Smith`, and its output filename is
`2023-01-a-study-of-gf2-codes.html`. -/
theorem example_record_parsed :
    parse_bibtex exampleRecord = some [exampleEntry]
    ∧ get_publication_title exampleEntry = "A Study of GF(2) Codes".toList
    ∧ format_authors (dictGet exampleEntry ("author".toList) ("Unknown Author".toList))
        = "A. Carraro and B. Smith".toList
    ∧ get_date_for_filename exampleEntry ++ ['-'] ++ generate_publication_slug exampleEntry
        ++ (".html".toList) = "2023-01-a-study-of-gf2-codes.html".toList := by
  decide

/-- Claim C5 (counterexample): an all-digit month field is used as-is, so
month `13` yields the prefix `2020-13`, whose MM part is not in 01..12. -/
theorem date_month_out_of_range :
    get_date_for_filename month13Entry = "2020-13".toList
    ∧ ("13".toList) ∉ validMonths := by decide

lemma tableLookup_months_valid (k v : List Char)
    (h : tableLookup monthsTable k = some v) : pad2 v ∈ validMonths := by
  unfold tableLookup at h
  simp only [Option.map_eq_some'] at h
  obtain ⟨p, hp, hv⟩ := h
  subst hv
  have hm := List.mem_of_find?_eq_some hp
  fin_cases hm <;> decide

/-- Claim C5 (amended): the derived prefix is always the year field verbatim
(`2020` when absent), a hyphen, and a month part padded to at least two
digits; the month part lies in 01..12 in every case except an all-digit month
field, which is used as-is and may fall outside that range
(`date_month_out_of_range`). -/
theorem date_prefix_shape (pub : Entry) :
    get_date_for_filename pub
      = dictGet pub ("year".toList) ("2020".toList) ++ ['-'] ++ pad2 (monthPart pub)
    ∧ (pad2 (monthPart pub) ∈ validMonths
      ∨ (isAllDigits (dictGet pub ("month".toList) ("01".toList)) = true
        ∧ monthPart pub = dictGet pub ("month".toList) ("01".toList))) := by
  refine ⟨rfl, ?_⟩
  simp only [monthPart]
  cases hl : tableLookup monthsTable
      (pyLower (dictGet pub ("month".toList) ("01".toList))) with
  | some v =>
    left
    exact tableLookup_months_valid _ v hl
  | none =>
    by_cases hd : isAllDigits (dictGet pub ("month".toList) ("01".toList))
    · right
      refine ⟨hd, ?_⟩
      rw [hd]
      simp
    · left
      have hd' : isAllDigits (dictGet pub ("month".toList) ("01".toList)) = false := by
        simpa using hd
      rw [hd']
      simp
      decide

/-! ### Claim C3: the index's display groups partition the entries -/
lemma count_filter_eq (p : Summary → Bool) (a : Summary) (l : List Summary) :
    (l.filter p).count a = if p a then l.count a else 0 := by
  induction l with
  | nil => by_cases h : p a <;> simp [h]
  | cons b t ih =>
    rw [List.filter_cons]
    by_cases hb : p b
    · rw [if_pos hb]
      rw [List.count_cons, List.count_cons, ih]
      by_cases hba : b = a
      · subst hba
        simp [hb]
      · simp [hba]
    · rw [if_neg hb]
      rw [ih, List.count_cons]
      by_cases hba : b = a
      · subst hba
        simp [hb]
      · simp [hba]

/-- Claim C3 (counterexample): an entry of type `book` appears in no rendered
group at all — the `books` list is computed (line 451) but never rendered,
and `book` is excluded from the catch-all `others` filter — whereas the claim
puts it in the Other group. -/
theorem book_entries_not_rendered :
    bookSummary.type = "book".toList ∧ renderedEntries [bookSummary] = [] := by decide

/-- Claim C3 (amended): the five rendered display groups (Journal Articles,
Book Chapters, Conference Papers, Theses, Other = misc + unmatched types)
partition every entry whose type is not `book`: each such entry occurs in the
concatenation of the rendered groups exactly as often as in the input list,
while a `book` entry occurs in no rendered group. -/
theorem rendered_entries_partition (pubs : List Summary) (p : Summary) :
    (renderedEntries pubs).count p
      = if p.type = ("book".toList) then 0 else pubs.count p := by
  unfold renderedEntries articlesOf incollectionsOf inproceedingsOf thesisOf miscOf othersOf
  simp only [List.count_append]
  rw [count_filter_eq, count_filter_eq, count_filter_eq, count_filter_eq,
    count_filter_eq, count_filter_eq]
  by_cases h1 : p.type = ("article".toList)
  · rw [h1]; simp
  by_cases h2 : p.type = ("book".toList)
  · rw [h2]; simp
  by_cases h3 : p.type = ("inproceedings".toList)
  · rw [h3]; simp
  by_cases h4 : p.type = ("conference".toList)
  · rw [h4]; simp
  by_cases h5 : p.type = ("incollection".toList)
  · rw [h5]; simp
  by_cases h6 : p.type = ("phdthesis".toList)
  · rw [h6]; simp
  by_cases h7 : p.type = ("misc".toList)
  · rw [h7]; simp
  simp_all

/-- Claim C2 (counterexample): the input `{}` has balanced braces, yet
`clean_latex` returns it unchanged — both substitution patterns require a
nonempty group, so the no-change safety break fires with braces left in the
output (and such a value can reach a record field verbatim). -/
theorem clean_latex_balanced_braces_remain :
    balancedBraces ("\x7b\x7d".toList) = true
    ∧ clean_latex ("\x7b\x7d".toList) = "\x7b\x7d".toList
    ∧ '{' ∈ clean_latex ("\x7b\x7d".toList) := by decide

/-- Claim C2 (amended): whitespace normalization holds unconditionally — the
cleaner's output has every whitespace character collapsed to a single space
with no leading, trailing, or doubled spaces — but brace removal is only
best-effort: even balanced input can keep braces
(`clean_latex_balanced_braces_remain`). -/
theorem clean_latex_whitespace_normalized (s : List Char) :
    wsNormalized (clean_latex s) = true := by
  unfold clean_latex
  split
  · rename_i hs
    have h0 : s = [] := List.isEmpty_iff.mp hs
    subst h0
    decide
  · unfold wsNormalized
    have h1 := pyStrip_all (q := fun c => !(isPySpace c) || decide (c = ' '))
      (wsC false (cleanLoop s)) (wsC_all_space false (cleanLoop s))
    have h2 := pyStrip_noAdj _ (wsC_noAdj false (cleanLoop s))
    have h3 : ¬ (pyStrip (wsC false (cleanLoop s))).head? = some ' ' := by
      intro hh
      have := pyStrip_head _ _ hh
      simp [isPySpace] at this
    have h4 : ¬ (pyStrip (wsC false (cleanLoop s))).getLast? = some ' ' := by
      intro hh
      have := pyStrip_last _ _ hh
      simp [isPySpace] at this
    simp [h1, h2, h3, h4]

/-! ### Claims C7 and C8: occurrence reasoning for scans -/
lemma begins_append_left (n x b : List Char) (hlen : n.length ≤ x.length) :
    begins n (x ++ b) = begins n x := by
  induction n generalizing x with
  | nil => simp [begins]
  | cons a n' ih =>
    cases x with
    | nil => simp at hlen
    | cons c t =>
      simp only [List.cons_append, begins, List.append_eq]
      rw [ih t (by simpa using hlen)]

lemma begins_straddle (n a c : List Char) (k : Nat) (hk : k < a.length)
    (hk2 : a.length < k + n.length)
    (hb : begins n (a.drop k ++ (n ++ c)) = true) :
    n.drop (a.length - k) = n.take (n.length - (a.length - k))
    ∧ a.drop k = n.take (a.length - k) := by
  obtain ⟨t, ht⟩ := (begins_iff _ _).mp hb
  have hdl : (a.drop k).length = a.length - k := by simp [List.length_drop]
  have hjn : a.length - k ≤ n.length := by omega
  have hsplit : n.take (a.length - k) ++ (n.drop (a.length - k) ++ t)
      = a.drop k ++ (n ++ c) := by
    rw [← List.append_assoc, List.take_append_drop]
    exact ht
  have hlen : (n.take (a.length - k)).length = (a.drop k).length := by
    simp [List.length_take]
    try omega
  obtain ⟨h1, h2⟩ := List.append_inj hsplit hlen
  have hsplit2 : n.drop (a.length - k) ++ t
      = n.take (n.length - (a.length - k)) ++ (n.drop (n.length - (a.length - k)) ++ c) := by
    rw [← List.append_assoc, List.take_append_drop]
    exact h2
  have hlen2 : (n.drop (a.length - k)).length
      = (n.take (n.length - (a.length - k))).length := by
    simp [List.length_drop, List.length_take]
    try omega
  obtain ⟨h3, _⟩ := List.append_inj hsplit2 hlen2
  exact ⟨h3, h1.symm⟩

/-- The first occurrence of `n` in `a ++ n ++ c` is at `a.length`, provided
`n` does not occur inside `a` and no occurrence straddles the junction: for
every self-overlap width `j` of `n`, `a` must not end with `n`'s prefix of
width `j`. -/
lemma first_occurrence_append (n a c : List Char) (_hn : n ≠ [])
    (ha : pyFind n a = none)
    (hstr : ∀ j, 0 < j → j < n.length → n.drop j = n.take (n.length - j) →
      a.drop (a.length - j) ≠ n.take j) :
    pyFind n (a ++ (n ++ c)) = some a.length := by
  apply pyFind_eq_some_of
  · rw [List.drop_left]
    exact begins_append_self n c
  · intro k hk
    rw [List.drop_append_of_le_length (by omega)]
    by_cases hkn : k + n.length ≤ a.length
    · rw [begins_append_left n (a.drop k) _ (by simp [List.length_drop]; omega)]
      exact pyFind_none_all n a ha k
    · by_contra hb
      rw [Bool.not_eq_false] at hb
      obtain ⟨h3, h1⟩ := begins_straddle n a c k hk (by omega) hb
      refine hstr (a.length - k) (by omega) (by omega) h3 ?_
      rw [show a.length - (a.length - k) = k from by omega]
      exact h1

lemma overlapFree_no_border (n : List Char) (hov : overlapFreeB n = true)
    (j : Nat) (h1 : 0 < j) (h2 : j < n.length) :
    n.drop j ≠ n.take (n.length - j) := by
  have := List.all_eq_true.mp hov j (List.mem_range.mpr h2)
  simp only [Bool.or_eq_true, decide_eq_true_eq] at this
  rcases this with h | h
  · omega
  · exact h

lemma first_occurrence_append_of_overlapFree (n a c : List Char) (hn : n ≠ [])
    (hov : overlapFreeB n = true) (ha : pyFind n a = none) :
    pyFind n (a ++ (n ++ c)) = some a.length :=
  first_occurrence_append n a c hn ha
    (fun j hj1 hj2 hborder _ => absurd hborder (overlapFree_no_border n hov j hj1 hj2))

lemma pyFind_take_none (n orig : List Char) (i : Nat) (hn : n ≠ [])
    (hf : pyFind n orig = some i) : pyFind n (orig.take i) = none := by
  cases hres : pyFind n (orig.take i) with
  | none => rfl
  | some k =>
    exfalso
    have hb := pyFind_some_begins _ _ _ hres
    have horig : begins n (orig.drop k) = true := by
      obtain ⟨t, ht⟩ := (begins_iff _ _).mp hb
      rw [List.drop_take] at ht
      apply (begins_iff _ _).mpr
      refine ⟨t ++ (orig.drop k).drop (i - k), ?_⟩
      rw [← List.append_assoc, ht, List.take_append_drop]
    have hlen := begins_length_le _ _ hb
    have hlen2 : ((orig.take i).drop k).length ≤ i - k := by
      simp [List.length_drop, List.length_take]
      omega
    have hn1 : 1 ≤ n.length := by
      cases n with
      | nil => exact absurd rfl hn
      | cons x xs => simp
    have hk_lt : k < i := by omega
    exact absurd horig (by simpa using pyFind_some_min n orig i hf k hk_lt)

lemma headerOf_no_mark (orig : List Char) : pyFind archiveMark (headerOf orig) = none := by
  unfold headerOf
  cases hf : pyFind archiveMark orig with
  | none => exact hf
  | some i => exact pyFind_take_none _ _ _ (by decide) hf

lemma indexContent_shape (pubs : List Summary) :
    ∃ rest, indexContent pubs = archiveMark ++ rest := by
  unfold indexContent
  simp only [List.append_assoc]
  exact ⟨_, rfl⟩

/-- Claim C8 (amended): regenerating the index from its own output is the
identity, provided the freshly built region (header plus content) contains no
occurrence of the footer anchor — the second run then recovers exactly the
same header, rebuilds the same content from the same summaries, and recovers
exactly the same footer.  (Without that proviso the claim fails:
`index_regen_not_idempotent_marker_title`.) -/
theorem index_regen_idempotent (orig : List Char) (pubs sorted : List Summary)
    (O1 : List Char)
    (hs : sortSummaries pubs = some sorted)
    (h1 : generate_publications_index orig pubs = some O1)
    (h2 : pyFind footMark (headerOf orig ++ indexContent sorted) = none) :
    generate_publications_index O1 pubs = some O1 := by
  unfold generate_publications_index at h1 ⊢
  rw [hs] at h1 ⊢
  dsimp only at h1 ⊢
  simp only [Option.some.injEq] at h1
  set H := headerOf orig with hH
  set F := footerOf orig with hF
  set IC := indexContent sorted with hIC
  obtain ⟨rest, hrest⟩ := indexContent_shape sorted
  rw [← hIC] at hrest
  have hfindA : pyFind archiveMark (H ++ (IC ++ F)) = some H.length := by
    rw [hrest, List.append_assoc]
    exact first_occurrence_append_of_overlapFree archiveMark H (rest ++ F)
      (by decide) (by decide) (hH ▸ headerOf_no_mark orig)
  have hhead : headerOf (H ++ (IC ++ F)) = H := by
    unfold headerOf
    rw [hfindA]
    exact List.take_left H (IC ++ F)
  have hfoot : footerOf (H ++ (IC ++ F)) = F := by
    cases hf : pyFind footMark orig with
    | some j =>
      have hb := pyFind_some_begins _ _ _ hf
      obtain ⟨fr, hfr⟩ := (begins_iff _ _).mp hb
      have hFdef : F = footMark ++ fr := by
        rw [hF]
        unfold footerOf
        rw [hf]
        exact hfr.symm
      have hfind2 : pyFind footMark ((H ++ IC) ++ (footMark ++ fr))
          = some (H ++ IC).length :=
        first_occurrence_append_of_overlapFree footMark (H ++ IC) fr
          (by decide) (by decide) h2
      unfold footerOf
      rw [show H ++ (IC ++ F) = (H ++ IC) ++ (footMark ++ fr) from by
        rw [hFdef, List.append_assoc]]
      rw [hfind2]
      dsimp only
      rw [List.drop_left]
      exact hFdef.symm
    | none =>
      have hFdef : F = [] := by
        rw [hF]
        unfold footerOf
        rw [hf]
      unfold footerOf
      rw [hFdef, List.append_nil, h2]
  rw [h1] at hhead hfoot
  rw [hhead, hfoot, h1]

/-- Witness: the amended C8 theorem applied to a concrete index file and the
empty summary list. -/
theorem index_regen_idempotent_witness :
    generate_publications_index idxO1 [] = some idxO1 :=
  index_regen_idempotent sampleIndexFile [] [] idxO1 (by decide) (by decide) (by decide)

/-- Claim C8 (counterexample): when a summary's title contains the footer
anchor text, the first regeneration succeeds but the second finds the anchor
inside the freshly built content, keeps everything from that point as
"footer", and produces a different (longer) file — re-running is not
idempotent for every summary list. -/
theorem index_regen_not_idempotent_marker_title :
    generate_publications_index sampleIndexFile [markTitleSummary] = some badO1
    ∧ generate_publications_index badO1 [markTitleSummary] ≠ some badO1 := by decide

lemma splitAnd_joinSep (tokens : List (List Char))
    (hok : ∀ t ∈ tokens, pyFind sepAnd t = none
      ∧ t.drop (t.length - 4) ≠ (" and".toList)) :
    tokens ≠ [] → splitAnd (joinSep sepAnd tokens) = tokens := by
  induction tokens with
  | nil => intro h; exact absurd rfl h
  | cons t rest ih =>
    intro _
    cases rest with
    | nil =>
      show splitAnd (joinSep sepAnd [t]) = [t]
      rw [show joinSep sepAnd [t] = t from rfl]
      exact splitAnd_eq_none t (hok t (by simp)).1
    | cons t2 rest2 =>
      have hocc : pyFind sepAnd (t ++ (sepAnd ++ joinSep sepAnd (t2 :: rest2)))
          = some t.length := by
        apply first_occurrence_append sepAnd t _ (by decide) (hok t (by simp)).1
        intro j hj1 hj2 hborder
        have h5 : sepAnd.length = 5 := rfl
        rw [h5] at hj2
        interval_cases j
        · exact absurd hborder (by decide)
        · exact absurd hborder (by decide)
        · exact absurd hborder (by decide)
        · exact (hok t (by simp)).2
      rw [show joinSep sepAnd (t :: t2 :: rest2)
          = t ++ (sepAnd ++ joinSep sepAnd (t2 :: rest2)) from by
        rw [joinSep, List.append_assoc]]
      rw [splitAnd_eq_some _ _ hocc]
      congr 1
      · exact List.take_left t _
      · rw [show t ++ (sepAnd ++ joinSep sepAnd (t2 :: rest2))
            = (t ++ sepAnd) ++ joinSep sepAnd (t2 :: rest2) from by
          rw [List.append_assoc]]
        rw [show t.length + 5 = (t ++ sepAnd).length from by simp [sepAnd]]
        rw [List.drop_left]
        exact ih (fun u hu => hok u (by simp [hu])) (by simp)

lemma joinSep_ne_nil (sep t : List Char) (rest : List (List Char)) (ht : t ≠ []) :
    joinSep sep (t :: rest) ≠ [] := by
  cases rest with
  | nil => simpa [joinSep] using ht
  | cons t2 r2 =>
    simp only [joinSep, ne_eq, List.append_eq_nil]
    intro h
    exact ht h.1.1

/-- Claim C7 (amended): `format_authors` produces the claimed display forms
when the authors are joined by the exact separator `' and '` (single
spaces): the empty string for an empty author list, and otherwise each token
trimmed of surrounding whitespace, rendered as the single name, `A and B`,
or the Oxford-style comma list.  The hypotheses ask each author token to be
nonempty, free of the separator, and not ending in `' and'`; tokens may
carry surrounding whitespace, which the formatter strips.  With separators
using other whitespace the function does not split
(`format_authors_tab_separator_not_split`). -/
theorem format_authors_spec (tokens : List (List Char))
    (hok : ∀ t ∈ tokens, t ≠ [] ∧ pyFind sepAnd t = none
      ∧ t.drop (t.length - 4) ≠ (" and".toList)) :
    format_authors (joinSep sepAnd tokens) = renderAuthors (tokens.map pyStrip) := by
  cases tokens with
  | nil => rfl
  | cons t rest =>
    have hsplit : splitAnd (joinSep sepAnd (t :: rest)) = t :: rest :=
      splitAnd_joinSep (t :: rest)
        (fun u hu => ⟨(hok u hu).2.1, (hok u hu).2.2⟩) (by simp)
    unfold format_authors
    rw [if_neg (by
      simp only [List.isEmpty_iff]
      exact joinSep_ne_nil sepAnd t rest (hok t (by simp)).1)]
    rw [hsplit]
    cases rest with
    | nil => rfl
    | cons b rest2 =>
      cases rest2 with
      | nil => rfl
      | cons c rest3 => rfl

/-- Witness: the amended C7 theorem at four concrete authors carrying
surrounding whitespace; the formatter trims each and gives
`W, X, Y, and Z`. -/
theorem format_authors_spec_witness :
    format_authors (joinSep sepAnd authorTokens)
      = renderAuthors (authorTokens.map pyStrip) :=
  format_authors_spec authorTokens (by decide)

/-- Claim C7 (counterexample): two authors joined by `and` surrounded by
tabs — whitespace in the claim's sense — are not split at all: the split is
on the literal five-character string `' and '`, so the function returns the
input unchanged instead of the two-author form `A and B`. -/
theorem format_authors_tab_separator_not_split :
    format_authors ("A\tand\tB".toList) = "A\tand\tB".toList
    ∧ format_authors ("A\tand\tB".toList) ≠ "A and B".toList := by decide
